import Mathlib

set_option maxHeartbeats 1000000

/-!
Shallow embedding of the LiveKit transcription/translation server
(`server/main.py` of the Jamaa-Shifa repository): the sentence boundary
extractor `_extract_complete_sentences`, the `Translator` class with its
rolling/fresh context modes and token-stream assembly, the translator
registry updated by `on_attributes_changed`, the concurrent sentence
dispatch `_translate_sentences`, and the transcript accumulation state
machine formed by `_forward_transcription` and `_delayed_translation`.
Text is represented as `List Char`; Python strings arriving from the
recognizer are mapped via `String.toList`.
-/

/-- Terminal punctuation characters of the sentence pattern
`r'([.!?؟،]+)'` in `_extract_complete_sentences`. -/
def isPunct (c : Char) : Bool :=
  c = '.' || c = '!' || c = '?' || c = '؟' || c = '،'

/-- Whitespace characters removed by Python `str.strip()`
(the ASCII whitespace set). -/
def isPySpace (c : Char) : Bool :=
  c = ' ' || c = '\t' || c = '\n' || c = '\r' || c = '\x0b' || c = '\x0c'

/-- Python `str.strip()`: remove leading and trailing whitespace. -/
def pyStrip (cs : List Char) : List Char :=
  ((cs.dropWhile isPySpace).reverse.dropWhile isPySpace).reverse

/-- One step of tokenizing a character onto an already-tokenized suffix.
The suffix is represented as the list of (content, punctuation-run) pairs
followed by the trailing content, exactly the alternating token list that
`re.split(r'([.!?؟،]+)', text)` produces. -/
def parseStep (c : Char) :
    List (List Char × List Char) × List Char → List (List Char × List Char) × List Char
  | ([], tail) =>
    if isPunct c then ([([], [c])], tail) else ([], c :: tail)
  | (([], p) :: rest, tail) =>
    if isPunct c then (([], c :: p) :: rest, tail) else (([c], p) :: rest, tail)
  | ((c0 :: co, p) :: rest, tail) =>
    if isPunct c then (([], [c]) :: (c0 :: co, p) :: rest, tail)
    else ((c :: c0 :: co, p) :: rest, tail)

/-- Model of `re.split(r'([.!?؟،]+)', text)`: the text decomposes into
(content, punctuation-run) pairs, with the runs maximal and captured,
plus the trailing content after the last run. -/
def parseTokens : List Char → List (List Char × List Char) × List Char
  | [] => ([], [])
  | c :: cs => parseStep c (parseTokens cs)

/-- Concatenation of the pair tokens back into text. -/
def flattenPairs (l : List (List Char × List Char)) : List Char :=
  l.foldr (fun cp acc => cp.1 ++ cp.2 ++ acc) []

/-- Prepend a punctuation-free block of text onto a tokenization: it fuses
with the leading content token. -/
def prependContent (x : List Char) :
    List (List Char × List Char) × List Char → List (List Char × List Char) × List Char
  | ([], tail) => ([], x ++ tail)
  | ((c, p) :: rest, tail) => ((x ++ c, p) :: rest, tail)

/-- The pairwise sentence-collection loop of `_extract_complete_sentences`:
a content token immediately followed by a punctuation-run token forms one
complete sentence `(parts[i] + parts[i+1]).strip()`; empty or
whitespace-only candidates are dropped (`if sentence and not
sentence.isspace()`). -/
def extractLoop : List (List Char × List Char) → List (List Char)
  | [] => []
  | cp :: rest =>
    let sentence := pyStrip (cp.1 ++ cp.2)
    if sentence ≠ [] ∧ sentence.all isPySpace = false then sentence :: extractLoop rest
    else extractLoop rest

/-- `_extract_complete_sentences(text)` from `server/main.py` lines 225-251:
empty or whitespace-only input returns `([], "")`; otherwise the text is
split on runs of `[.!?؟،]`, pairs of content+punctuation become complete
sentences and the trailing content, stripped, is the remainder. -/
def extract_complete_sentences (text : List Char) : List (List Char) × List Char :=
  if pyStrip text = [] then ([], [])
  else (extractLoop (parseTokens text).1, pyStrip (parseTokens text).2)

/-- Rebuild a `(sentences, remainder)` result into a single text. -/
def joinExtract (pr : List (List Char) × List Char) : List Char :=
  pr.1.foldr (fun s acc => s ++ acc) pr.2

/-- A chat message as accumulated in `llm.ChatContext`. -/
structure ChatMsg where
  role : String
  content : String
  deriving DecidableEq, Repr

def systemMsg (sysPrompt : String) : ChatMsg := ⟨"system", sysPrompt⟩

def userMsg (m : String) : ChatMsg := ⟨"user", m⟩

/-- The mutable state of a `Translator` instance: its persistent
`self.context` and `self.message_count`. -/
structure TranslatorState where
  context : List ChatMsg
  message_count : Nat
  deriving DecidableEq, Repr

/-- `Translator.use_context` (line 109 of `server/main.py`): rolling
context is disabled by default. -/
def use_context : Bool := false

/-- `Translator.__init__`: the persistent context starts with only the
system prompt and the user-message counter at zero. -/
def initTranslator (sysPrompt : String) : TranslatorState :=
  ⟨[systemMsg sysPrompt], 0⟩

/-- The context handling of `Translator.translate` (lines 130-151): in
rolling mode the user message is appended and the counter incremented,
then on overflow (`message_count > 9`) the persistent context is reset to
just the system prompt before the LLM call; in fresh mode a throwaway
context `[system, user]` is built and the persistent state is untouched.
Returns the updated persistent state and the context given to
`self.llm.chat`. -/
def translateContext (useContext : Bool) (sysPrompt : String)
    (s : TranslatorState) (message : String) : TranslatorState × List ChatMsg :=
  if useContext then
    let ctx1 := s.context ++ [userMsg message]
    let count1 := s.message_count + 1
    if count1 > 9 then
      let ctx2 := [systemMsg sysPrompt]
      (⟨ctx2, 0⟩, ctx2)
    else
      (⟨ctx1, count1⟩, ctx1)
  else
    (s, [systemMsg sysPrompt, userMsg message])

/-- Iterate `translate` over a list of messages, collecting the chat
context sent to the LLM on each call. -/
def runTranslations (useContext : Bool) (sysPrompt : String) :
    TranslatorState → List String → TranslatorState × List (List ChatMsg)
  | s, [] => (s, [])
  | s, m :: ms =>
    let r := translateContext useContext sysPrompt s m
    let rest := runTranslations useContext sysPrompt r.1 ms
    (rest.1, r.2 :: rest.2)

/-- The token-collection loop of `Translator.translate` (lines 152-159):
`none` models a chunk whose `delta` is `None` (skipped by `continue`),
`some none` a chunk whose `delta.content` is `None` (breaking the loop),
and `some (some s)` a content token appended to `translated_message`. -/
def assembleStream : List (Option (Option String)) → String
  | [] => ""
  | none :: rest => assembleStream rest
  | some none :: _ => ""
  | some (some s) :: rest => s ++ assembleStream rest

/-- The codes of the supported language table `languages`
(lines 91-99 of `server/main.py`). -/
def supportedCodes : List String := ["ar", "en", "es", "fr", "de", "ja", "nl"]

/-- `source_language = "ar"` in `entrypoint` (line 191). -/
def source_language : String := "ar"

/-- The outcome logged by `on_attributes_changed` for one request. -/
inductive AttrEvent where
  | sourceLangRequest
  | existingLanguage
  | translatorCreated
  | unsupportedLanguage
  | noLanguageChange
  deriving DecidableEq, Repr

/-- The `captions_language` handling of `on_attributes_changed`
(lines 460-499): requests for the source language or an already registered
language leave the registry unchanged; a supported new language gets a
fresh Translator inserted; an unsupported code is logged as a warning and
otherwise ignored; a missing or empty attribute (`if lang:` falsy) changes
nothing. The registry is modelled as the insertion-ordered list of its
language codes. -/
def on_attributes_changed (translators : List String)
    (captionsLang : Option String) : List String × AttrEvent :=
  match captionsLang with
  | none => (translators, AttrEvent.noLanguageChange)
  | some lang =>
    if lang = "" then (translators, AttrEvent.noLanguageChange)
    else if lang = source_language then (translators, AttrEvent.sourceLangRequest)
    else if lang ∈ translators then (translators, AttrEvent.existingLanguage)
    else if lang ∈ supportedCodes then
      (translators ++ [lang], AttrEvent.translatorCreated)
    else (translators, AttrEvent.unsupportedLanguage)

/-- The per-sentence fan-out of `_translate_sentences`: one
`translator.translate(sentence, None)` task per registered language.
`beh` gives each invocation's outcome; `Except.error` models a raised
exception inside the call. -/
def translateTasks (translators : List String)
    (beh : String → List Char → Except String String) (sentence : List Char) :
    List (String × List Char × Except String String) :=
  translators.map (fun lang => (lang, sentence, beh lang sentence))

/-- Modelled semantics of `asyncio.gather(*tasks, return_exceptions=True)`
(line 271): every task runs to completion and exceptions are returned as
values in the result list, never re-raised to the caller. -/
def gatherReturnExceptions (results : List (Except String String)) :
    Except String (List (Except String String)) :=
  Except.ok results

/-- The sentence loop of `_translate_sentences` (lines 258-271): sentences
that strip to empty are skipped; each remaining sentence is fanned out to
all translators concurrently and gathered. Returns the completed
invocations `(language, sentence, outcome)` in order, or an error if the
gather itself were to raise. -/
def translate_sentences_go (translators : List String)
    (beh : String → List Char → Except String String) :
    List (List Char) → Except String (List (String × List Char × Except String String))
  | [] => Except.ok []
  | sentence :: rest =>
    if pyStrip sentence = [] then translate_sentences_go translators beh rest
    else
      let tasks := translateTasks translators beh sentence
      match gatherReturnExceptions (tasks.map (fun c => c.2.2)) with
      | Except.error e => Except.error e
      | Except.ok _ =>
        match translate_sentences_go translators beh rest with
        | Except.error e => Except.error e
        | Except.ok calls => Except.ok (tasks ++ calls)

/-- `_translate_sentences(sentences)` (lines 253-271): returns immediately
when there are no sentences or no translators. -/
def translate_sentences (translators : List String)
    (beh : String → List Char → Except String String)
    (sentences : List (List Char)) :
    Except String (List (String × List Char × Except String String)) :=
  if sentences = [] ∨ translators = [] then Except.ok []
  else translate_sentences_go translators beh sentences

/-- A concrete behavior where the `"fr"` translator raises. -/
def behFail : String → List Char → Except String String :=
  fun lang s => if lang = "fr" then Except.error "boom" else Except.ok "ok"

/-- `entrypoint` lines 206-211: the registry starts with the hard-coded
Dutch translator, created before any runtime language request. -/
def initialTranslators : List String := ["nl"]

/-- One armed `_delayed_translation` task: the `text` snapshot it captured,
whether `cancel()` was called on it while it slept, and whether its body
has already run. Tasks are indexed by creation order. -/
structure FlushTask where
  snapshot : List Char
  cancelled : Bool
  fired : Bool
  deriving DecidableEq, Repr

/-- The per-session mutable state of `_forward_transcription`:
`accumulated_text`, `last_final_transcript`, the
`pending_translation_task` handle (as the index of the task it refers to,
or `none`), every delayed-translation task created so far (indexed by
creation order), the next task index, and the translator registry. -/
structure SessionState where
  accumulated : List Char
  lastFinal : List Char
  pendingId : Option Nat
  tasks : Nat → Option FlushTask
  nextId : Nat
  translators : List String

/-- `pending_translation_task.cancel()`: mark the task the handle refers
to, if any, as cancelled (its sleep raises CancelledError). -/
def cancelPending (s : SessionState) : SessionState :=
  match s.pendingId with
  | none => s
  | some j =>
    { s with tasks := fun k => if k = j then
        (s.tasks j).map (fun t => { t with cancelled := true }) else s.tasks k }

/-- `pending_translation_task.cancel(); pending_translation_task = None`. -/
def clearPending (s : SessionState) : SessionState :=
  { cancelPending s with pendingId := none }

/-- Cancel any previous pending task and arm a new delayed translation
holding the given buffer snapshot (`pending_translation_task =
asyncio.create_task(_delayed_translation(accumulated_text, ...))`). -/
def armFlush (s : SessionState) (snapshot : List Char) : SessionState :=
  { cancelPending s with
    pendingId := some (cancelPending s).nextId,
    tasks := fun k => if k = (cancelPending s).nextId
      then some ⟨snapshot, false, false⟩ else (cancelPending s).tasks k,
    nextId := (cancelPending s).nextId + 1 }

/-- Lines 383-398 of `_forward_transcription`: when stripped leftover text
remains, cancel any previous pending translation and arm a new one with
the buffer snapshot; otherwise cancel any pending translation. -/
def stepDebounce (s1 : SessionState) : SessionState :=
  if (pyStrip s1.accumulated).isEmpty then clearPending s1
  else armFlush s1 s1.accumulated

/-- Lines 363-381: run the extractor on the appended buffer `acc0`; when
complete sentences were produced, cancel the pending flush, dispatch them
and keep only the remainder; then manage the debounce timer. Returns the
new state and the synchronously dispatched sentences. -/
def stepExtract (s0 : SessionState) (acc0 : List Char) :
    SessionState × List (List Char) :=
  if (extract_complete_sentences acc0).1.isEmpty then
    (stepDebounce { s0 with accumulated := acc0 }, [])
  else
    (stepDebounce { clearPending s0 with
        accumulated := (extract_complete_sentences acc0).2 },
     (extract_complete_sentences acc0).1)

/-- The FINAL_TRANSCRIPT branch of `_forward_transcription`
(lines 320-402): the stripped final text is discarded when empty or equal
to the last accepted final transcript; otherwise it is recorded, appended
to the accumulation buffer (space-joined when the buffer is nonempty, with
the buffer stripped first) and handed to extraction — provided the
registry is nonempty. -/
def stepFinal (s : SessionState) (x : List Char) :
    SessionState × List (List Char) :=
  if (pyStrip x).isEmpty || (pyStrip x == s.lastFinal) then (s, [])
  else if s.translators.isEmpty then ({ s with lastFinal := pyStrip x }, [])
  else stepExtract { s with lastFinal := pyStrip x }
    (if s.accumulated.isEmpty then pyStrip x
     else pyStrip s.accumulated ++ ' ' :: pyStrip x)

/-- Mark task `i` (holding `t`) as having run its body. -/
def markFired (s : SessionState) (i : Nat) (t : FlushTask) : SessionState :=
  { s with tasks := fun k => if k = i then some { t with fired := true }
      else s.tasks k }

/-- Mark task `i` fired and clear the handle
(`pending_translation_task = None` at the end of the body). -/
def markFiredClear (s : SessionState) (i : Nat) (t : FlushTask) : SessionState :=
  { markFired s i t with pendingId := none }

/-- The `if pending_translation_task and not
pending_translation_task.cancelled()` check of `_delayed_translation`. -/
def pendingLive (s : SessionState) : Bool :=
  match s.pendingId with
  | none => false
  | some j =>
    match s.tasks j with
    | none => false
    | some tp => !tp.cancelled

/-- `_delayed_translation` (lines 273-286) for task index `i`, at the
moment its sleep would end: a task cancelled while sleeping raises
CancelledError and dispatches nothing; otherwise its body runs once: if
the handle still refers to a live task, the snapshot is dispatched as a
single sentence (when it strips nonempty) and the handle is cleared. -/
def stepFire (s : SessionState) (i : Nat) : SessionState × List (List Char) :=
  match s.tasks i with
  | none => (s, [])
  | some t =>
    if t.cancelled then (s, [])
    else if t.fired then (s, [])
    else if pendingLive s then
      if (pyStrip t.snapshot).isEmpty then (markFiredClear s i t, [])
      else (markFiredClear s i t, [t.snapshot])
    else (markFired s i t, [])

/-- `participant_attributes_changed`: update the registry. -/
def stepAttrs (s : SessionState) (captionsLang : Option String) :
    SessionState × List (List Char) :=
  ({ s with translators := (on_attributes_changed s.translators captionsLang).1 },
   [])

/-- An event observable by one session: a final transcript fragment, the
elapse of a delayed-translation timer, or an attribute change. -/
inductive SessionEvent where
  | final : List Char → SessionEvent
  | fire : Nat → SessionEvent
  | attrs : Option String → SessionEvent

def stepSession (s : SessionState) : SessionEvent → SessionState × List (List Char)
  | SessionEvent.final x => stepFinal s x
  | SessionEvent.fire i => stepFire s i
  | SessionEvent.attrs l => stepAttrs s l

/-- `entrypoint` initial state (lines 206-217): empty buffer, empty last
final transcript, no pending task, and the hard-coded Dutch translator. -/
def initSession : SessionState :=
  ⟨[], [], none, fun _ => none, 0, initialTranslators⟩

/-- Run a sequence of events, collecting every dispatched sentence. -/
def runSession : SessionState → List SessionEvent → SessionState × List (List Char)
  | s, [] => (s, [])
  | s, e :: evs =>
    ((runSession (stepSession s e).1 evs).1,
     (stepSession s e).2 ++ (runSession (stepSession s e).1 evs).2)

/-- States reachable from session start by some event sequence. -/
def Reachable (s : SessionState) : Prop :=
  ∃ evs, (runSession initSession evs).1 = s

/-- Key invariant: every task that is neither cancelled nor fired is the
task the pending handle refers to. The code maintains it by always calling
`cancel()` on the previous task before replacing or clearing the handle. -/
def TaskInv (s : SessionState) : Prop :=
  ∀ i t, s.tasks i = some t → t.cancelled = false → t.fired = false →
    s.pendingId = some i

/-- After cancelling the pending task there is no live unfired task left. -/
def NoLiveTask (s : SessionState) : Prop :=
  ∀ i t, s.tasks i = some t → t.cancelled = false → t.fired = false → False

theorem punct_not_space (c : Char) (h : isPySpace c = true) : isPunct c = false := by
  simp only [isPySpace, Bool.or_eq_true, decide_eq_true_eq] at h
  rcases h with ((((h | h) | h) | h) | h) | h <;> subst h <;> decide

theorem dropWhile_space_of_all (w x : List Char) (hw : ∀ c ∈ w, isPySpace c = true) :
    (w ++ x).dropWhile isPySpace = x.dropWhile isPySpace :=
  List.dropWhile_append_of_pos hw

theorem pyStrip_space_left (w x : List Char) (hw : ∀ c ∈ w, isPySpace c = true) :
    pyStrip (w ++ x) = pyStrip x := by
  unfold pyStrip
  rw [dropWhile_space_of_all w x hw]

theorem filter_dropWhile_space (x : List Char) :
    (x.dropWhile isPySpace).filter (fun c => !isPySpace c)
      = x.filter (fun c => !isPySpace c) := by
  induction x with
  | nil => rfl
  | cons a x ih =>
    by_cases ha : isPySpace a = true
    · rw [List.dropWhile_cons, if_pos ha, List.filter_cons, ih]
      simp [ha]
    · rw [List.dropWhile_cons, if_neg ha]

theorem filter_pyStrip (x : List Char) :
    (pyStrip x).filter (fun c => !isPySpace c) = x.filter (fun c => !isPySpace c) := by
  unfold pyStrip
  rw [List.filter_reverse, filter_dropWhile_space, List.filter_reverse,
    List.reverse_reverse, filter_dropWhile_space]

theorem pyStrip_nil_all_space (t : List Char) (h : pyStrip t = []) :
    ∀ c ∈ t, isPySpace c = true := by
  intro c hc
  have hf : t.filter (fun c => !isPySpace c) = [] := by
    rw [← filter_pyStrip, h]; rfl
  cases hb : isPySpace c with
  | true => rfl
  | false =>
    have hmem : c ∈ t.filter (fun c => !isPySpace c) :=
      List.mem_filter.mpr ⟨hc, by simp [hb]⟩
    rw [hf] at hmem
    exact absurd hmem (List.not_mem_nil c)

theorem getLast_of_append {α : Type} (A T : List α) (h : T ≠ []) :
    (A ++ T).getLast? = T.getLast? := by
  rw [List.getLast?_append]
  cases hT : T.getLast? with
  | none => exact absurd (List.getLast?_eq_none_iff.mp hT) h
  | some b => rfl

theorem pyStrip_no_trailing (t : List Char) (cl : Char) (h : t.getLast? = some cl)
    (hcl : isPySpace cl = false) : pyStrip t = t.dropWhile isPySpace := by
  unfold pyStrip
  set d := t.dropWhile isPySpace with hd
  by_cases hdnil : d = []
  · rw [hdnil]; rfl
  · have hsplit : t.takeWhile isPySpace ++ d = t := by
      rw [hd]; exact List.takeWhile_append_dropWhile isPySpace t
    have hlast : d.getLast? = some cl := by
      rw [← h, ← hsplit, getLast_of_append _ _ hdnil]
    have hhead : d.reverse.head? = some cl := by
      rw [List.head?_reverse]; exact hlast
    rcases List.exists_cons_of_ne_nil (fun hr => hdnil (List.reverse_eq_nil_iff.mp hr) :
      d.reverse ≠ []) with ⟨c, r, hc⟩
    have hccl : c = cl := by
      rw [hc] at hhead
      exact Option.some.inj hhead
    have hcsp : isPySpace c = false := by rw [hccl]; exact hcl
    rw [hc, List.dropWhile_cons, if_neg (by simp [hcsp]), ← hc, List.reverse_reverse]

theorem parseTokens_flatten (cs : List Char) :
    flattenPairs (parseTokens cs).1 ++ (parseTokens cs).2 = cs := by
  induction cs with
  | nil => rfl
  | cons c cs ih =>
    show flattenPairs (parseStep c (parseTokens cs)).1 ++ (parseStep c (parseTokens cs)).2
        = c :: cs
    rcases hp : parseTokens cs with ⟨P, T⟩
    rw [hp] at ih
    rcases P with _ | ⟨⟨co, p⟩, rest⟩
    · by_cases hc : isPunct c = true
      · simp only [parseStep, hc, if_true, flattenPairs, List.foldr] at ih ⊢
        simpa using ih
      · simp only [parseStep, hc, if_false, flattenPairs, List.foldr] at ih ⊢
        simpa using ih
    · rcases co with _ | ⟨c0, co⟩
      · by_cases hc : isPunct c = true
        · simp only [parseStep, hc, if_true, flattenPairs, List.foldr] at ih ⊢
          simpa using ih
        · simp only [parseStep, hc, if_false, flattenPairs, List.foldr] at ih ⊢
          simpa using ih
      · by_cases hc : isPunct c = true
        · simp only [parseStep, hc, if_true, flattenPairs, List.foldr] at ih ⊢
          simpa using ih
        · simp only [parseStep, hc, if_false, flattenPairs, List.foldr] at ih ⊢
          simpa using ih

theorem parseTokens_tail_no_punct (cs : List Char) :
    ∀ x ∈ (parseTokens cs).2, isPunct x = false := by
  induction cs with
  | nil => intro x hx; exact absurd hx (List.not_mem_nil x)
  | cons c cs ih =>
    show ∀ x ∈ (parseStep c (parseTokens cs)).2, isPunct x = false
    rcases hp : parseTokens cs with ⟨P, T⟩
    rw [hp] at ih
    rcases P with _ | ⟨⟨co, p⟩, rest⟩
    · by_cases hc : isPunct c = true
      · simpa [parseStep, hc] using ih
      · simp only [parseStep, hc, if_false]
        intro x hx
        rcases List.mem_cons.mp hx with hx | hx
        · subst hx
          cases hb : isPunct x with
          | true => exact absurd hb hc
          | false => rfl
        · exact ih x hx
    · rcases co with _ | ⟨c0, co⟩ <;> by_cases hc : isPunct c = true <;>
        simpa [parseStep, hc] using ih

theorem parseTokens_tail_ne_nil (cs : List Char) (cl : Char)
    (hcl : isPunct cl = false) :
    cs.getLast? = some cl → (parseTokens cs).2 ≠ [] := by
  induction cs with
  | nil => intro h; simp at h
  | cons c cs ih =>
    intro h
    cases cs with
    | nil =>
      have hc : c = cl := by simpa using h
      have hc2 : isPunct c = false := by rw [hc]; exact hcl
      show (parseStep c (parseTokens [])).2 ≠ []
      simp [parseTokens, parseStep, hc2]
    | cons c1 cs1 =>
      rw [List.getLast?_cons_cons] at h
      have ih1 := ih h
      show (parseStep c (parseTokens (c1 :: cs1))).2 ≠ []
      rcases hp : parseTokens (c1 :: cs1) with ⟨P, T⟩
      rw [hp] at ih1
      rcases P with _ | ⟨⟨co, p⟩, rest⟩
      · by_cases hc : isPunct c = true <;> simp [parseStep, hc, ih1]
      · rcases co with _ | ⟨c0, co⟩ <;> by_cases hc : isPunct c = true <;>
          simp [parseStep, hc, ih1]

theorem prependContent_nil (r : List (List Char × List Char) × List Char) :
    prependContent [] r = r := by
  rcases r with ⟨P, T⟩
  rcases P with _ | ⟨⟨c, p⟩, rest⟩ <;> rfl

theorem parseTokens_content_block (x y : List Char)
    (hx : ∀ c ∈ x, isPunct c = false) :
    parseTokens (x ++ y) = prependContent x (parseTokens y) := by
  induction x with
  | nil => rw [List.nil_append, prependContent_nil]
  | cons a x ih =>
    have ha : isPunct a = false := hx a (by simp)
    have ih1 := ih (fun c hc => hx c (by simp [hc]))
    show parseStep a (parseTokens (x ++ y)) = prependContent (a :: x) (parseTokens y)
    rw [ih1]
    rcases parseTokens y with ⟨P, T⟩
    rcases P with _ | ⟨⟨co, p⟩, rest⟩
    · simp [prependContent, parseStep, ha]
    · rcases hxc : x ++ co with _ | ⟨b, bs⟩
      · rcases List.append_eq_nil.mp hxc with ⟨hx1, hc1⟩
        subst hx1; subst hc1
        simp [prependContent, parseStep, ha]
      · simp [prependContent, parseStep, hxc, ha]

theorem parseTokens_head_content (cs : List Char)
    (h : ∀ cf, cs.head? = some cf → isPunct cf = false) :
    (parseTokens cs).1 = [] ∨
      ∃ c0 co p rest, (parseTokens cs).1 = (c0 :: co, p) :: rest := by
  rcases cs with _ | ⟨c, cs⟩
  · exact Or.inl rfl
  · have hc : isPunct c = false := h c rfl
    rw [show parseTokens (c :: cs) = parseStep c (parseTokens cs) from rfl]
    rcases parseTokens cs with ⟨P, T⟩
    rcases P with _ | ⟨⟨co, p⟩, rest⟩
    · left
      simp [parseStep, hc]
    · rcases co with _ | ⟨c0, co⟩
      · exact Or.inr ⟨c, [], p, rest, by simp [parseStep, hc]⟩
      · exact Or.inr ⟨c, c0 :: co, p, rest, by simp [parseStep, hc]⟩

theorem parseTokens_cons (c : Char) (cs : List Char) :
    parseTokens (c :: cs) = parseStep c (parseTokens cs) := rfl

theorem parseStep_nonpunct_nil (c : Char) (tail : List Char) (hc : isPunct c = false) :
    parseStep c ([], tail) = ([], c :: tail) := by
  simp [parseStep, hc]

theorem parseStep_nonpunct_pair (c : Char) (co p : List Char)
    (rest : List (List Char × List Char)) (tail : List Char) (hc : isPunct c = false) :
    parseStep c ((co, p) :: rest, tail) = ((c :: co, p) :: rest, tail) := by
  rcases co with _ | ⟨c0, co⟩ <;> simp [parseStep, hc]

theorem parseStep_punct_nil (c : Char) (tail : List Char) (hc : isPunct c = true) :
    parseStep c ([], tail) = ([([], [c])], tail) := by
  simp [parseStep, hc]

theorem parseStep_punct_merge (c : Char) (p : List Char)
    (rest : List (List Char × List Char)) (tail : List Char) (hc : isPunct c = true) :
    parseStep c (([], p) :: rest, tail) = (([], c :: p) :: rest, tail) := by
  simp [parseStep, hc]

theorem parseStep_punct_newrun (c c0 : Char) (co p : List Char)
    (rest : List (List Char × List Char)) (tail : List Char) (hc : isPunct c = true) :
    parseStep c ((c0 :: co, p) :: rest, tail)
      = (([], [c]) :: (c0 :: co, p) :: rest, tail) := by
  simp [parseStep, hc]

/-- Tokenizing `u ++ v` decomposes into tokenizing `u` and then re-tokenizing
its trailing content together with `v`, provided the boundary is clean: `u`
must not end inside a punctuation run that `v` continues. -/
theorem parseTokens_append (v : List Char) :
    ∀ (u : List Char) (P : List (List Char × List Char)) (T : List Char),
      parseTokens u = (P, T) →
      (T ≠ [] ∨ P = [] ∨ (∀ cf, v.head? = some cf → isPunct cf = false)) →
      parseTokens (u ++ v)
        = (P ++ (parseTokens (T ++ v)).1, (parseTokens (T ++ v)).2) := by
  intro u
  induction u with
  | nil =>
    intro P T hp h
    simp only [parseTokens] at hp
    injection hp with h1 h2
    subst h1; subst h2
    simp only [List.nil_append]
  | cons c u ih =>
    intro P T hp h
    rcases hq : parseTokens u with ⟨P', T'⟩
    rw [parseTokens_cons, hq] at hp
    rcases P' with _ | ⟨⟨co, p⟩, rest⟩
    · have hT : T' = u := by
        have hfl := parseTokens_flatten u
        rw [hq] at hfl
        simpa [flattenPairs] using hfl
      by_cases hc : isPunct c = true
      · rw [parseStep_punct_nil c _ hc] at hp
        injection hp with h1 h2
        subst h1; subst h2
        have hkey : (parseTokens (T' ++ v)).1 = [] ∨
            ∃ c0 co2 p2 rest2, (parseTokens (T' ++ v)).1 = (c0 :: co2, p2) :: rest2 := by
          have hTnp : ∀ x ∈ T', isPunct x = false := by
            have hnp := parseTokens_tail_no_punct u
            rw [hq] at hnp; exact hnp
          cases T' with
          | nil =>
            rw [List.nil_append]
            apply parseTokens_head_content
            rcases h with h | h | h
            · exact absurd rfl h
            · exact absurd h (by simp)
            · exact h
          | cons d T2 =>
            rw [parseTokens_content_block (d :: T2) v hTnp]
            rcases parseTokens v with ⟨Pv, Tv⟩
            rcases Pv with _ | ⟨⟨cv, pv⟩, restv⟩
            · exact Or.inl rfl
            · exact Or.inr ⟨d, T2 ++ cv, pv, restv, rfl⟩
        rw [← hT]
        rw [List.cons_append, parseTokens_cons]
        rcases hqq : parseTokens (T' ++ v) with ⟨Q1, Q2⟩
        rcases hkey with hk | ⟨c0, co2, p2, rest2, hk⟩
        · rw [hqq] at hk
          have hk2 : Q1 = [] := hk
          subst hk2
          simp [parseStep, hc]
        · rw [hqq] at hk
          have hk2 : Q1 = (c0 :: co2, p2) :: rest2 := hk
          subst hk2
          simp [parseStep, hc]
      · have hc2 : isPunct c = false := by simpa using hc
        rw [parseStep_nonpunct_nil c _ hc2] at hp
        injection hp with h1 h2
        subst h1; subst h2
        rw [← hT]
        rw [List.cons_append, parseTokens_cons]
        simp only [List.nil_append]
    · by_cases hc : isPunct c = true
      · rcases co with _ | ⟨c0, co⟩
        · rw [parseStep_punct_merge c p rest T' hc] at hp
          injection hp with h1 h2
          subst h1; subst h2
          have hyp2 : T' ≠ [] ∨ (([], p) :: rest : List (List Char × List Char)) = [] ∨
              (∀ cf, v.head? = some cf → isPunct cf = false) := by
            rcases h with h | h | h
            · exact Or.inl h
            · exact absurd h (by simp)
            · exact Or.inr (Or.inr h)
          have ihe := ih (([], p) :: rest) T' hq hyp2
          rw [List.cons_append, parseTokens_cons, ihe]
          simp [parseStep, hc]
        · rw [parseStep_punct_newrun c c0 co p rest T' hc] at hp
          injection hp with h1 h2
          subst h1; subst h2
          have hyp2 : T' ≠ [] ∨ ((c0 :: co, p) :: rest : List (List Char × List Char)) = [] ∨
              (∀ cf, v.head? = some cf → isPunct cf = false) := by
            rcases h with h | h | h
            · exact Or.inl h
            · exact absurd h (by simp)
            · exact Or.inr (Or.inr h)
          have ihe := ih ((c0 :: co, p) :: rest) T' hq hyp2
          rw [List.cons_append, parseTokens_cons, ihe]
          simp [parseStep, hc]
      · have hc2 : isPunct c = false := by simpa using hc
        rw [parseStep_nonpunct_pair c co p rest T' hc2] at hp
        injection hp with h1 h2
        subst h1; subst h2
        have hyp2 : T' ≠ [] ∨ ((co, p) :: rest : List (List Char × List Char)) = [] ∨
            (∀ cf, v.head? = some cf → isPunct cf = false) := by
          rcases h with h | h | h
          · exact Or.inl h
          · exact absurd h (by simp)
          · exact Or.inr (Or.inr h)
        have ihe := ih ((co, p) :: rest) T' hq hyp2
        rw [List.cons_append, parseTokens_cons, ihe]
        rcases co with _ | ⟨c0, co⟩ <;> simp [parseStep, hc2]

theorem parseTokens_no_punct (cs : List Char) (h : ∀ c ∈ cs, isPunct c = false) :
    parseTokens cs = ([], cs) := by
  induction cs with
  | nil => rfl
  | cons c cs ih =>
    rw [parseTokens_cons, ih (fun x hx => h x (by simp [hx])),
      parseStep_nonpunct_nil c cs (h c (by simp))]

theorem extract_complete_sentences_eq (text : List Char) :
    extract_complete_sentences text
      = (extractLoop (parseTokens text).1, pyStrip (parseTokens text).2) := by
  unfold extract_complete_sentences
  by_cases h : pyStrip text = []
  · rw [if_pos h]
    have hall : ∀ c ∈ text, isPySpace c = true := pyStrip_nil_all_space text h
    have hnp : ∀ c ∈ text, isPunct c = false := fun c hc => punct_not_space c (hall c hc)
    rw [parseTokens_no_punct text hnp]
    simp [extractLoop, h]
  · rw [if_neg h]

theorem extractLoop_append (a b : List (List Char × List Char)) :
    extractLoop (a ++ b) = extractLoop a ++ extractLoop b := by
  induction a with
  | nil => rfl
  | cons cp a ih =>
    simp only [List.cons_append, extractLoop]
    split <;> simp [ih]

theorem extractLoop_space_head (w c p : List Char) (rest : List (List Char × List Char))
    (hw : ∀ x ∈ w, isPySpace x = true) :
    extractLoop ((w ++ c, p) :: rest) = extractLoop ((c, p) :: rest) := by
  simp only [extractLoop]
  rw [List.append_assoc, pyStrip_space_left w (c ++ p) hw]

theorem foldr_append_init (l : List (List Char)) (z : List Char) :
    l.foldr (fun s acc => s ++ acc) z = (l.foldr (fun s acc => s ++ acc) []) ++ z := by
  induction l with
  | nil => rfl
  | cons s l ih => simp [List.foldr, ih]

theorem filter_extractLoop (pairs : List (List Char × List Char)) :
    ((extractLoop pairs).foldr (fun s acc => s ++ acc) []).filter (fun c => !isPySpace c)
      = (flattenPairs pairs).filter (fun c => !isPySpace c) := by
  induction pairs with
  | nil => rfl
  | cons cp rest ih =>
    rcases cp with ⟨c, p⟩
    have hfl : flattenPairs ((c, p) :: rest) = (c ++ p) ++ flattenPairs rest := by
      simp [flattenPairs]
    rw [hfl, List.filter_append]
    by_cases h1 : pyStrip (c ++ p) ≠ [] ∧ (pyStrip (c ++ p)).all isPySpace = false
    · have hloop : extractLoop ((c, p) :: rest)
          = pyStrip (c ++ p) :: extractLoop rest := by
        simp only [extractLoop]
        rw [if_pos h1]
      rw [hloop, List.foldr_cons, List.filter_append, ih, filter_pyStrip]
    · have hloop : extractLoop ((c, p) :: rest) = extractLoop rest := by
        simp only [extractLoop]
        rw [if_neg h1]
      have hcpnil : (c ++ p).filter (fun c => !isPySpace c) = [] := by
        rw [← filter_pyStrip]
        by_cases h2 : pyStrip (c ++ p) = []
        · rw [h2]; rfl
        · have h3 : (pyStrip (c ++ p)).all isPySpace = true := by
            cases h4 : (pyStrip (c ++ p)).all isPySpace with
            | true => rfl
            | false => exact absurd ⟨h2, h4⟩ h1
          refine List.filter_eq_nil_iff.mpr ?_
          intro a ha
          have := List.all_eq_true.mp h3 a ha
          simp [this]
      rw [hloop, ih, hcpnil, List.nil_append]

/-- Claim C6: for every input text, concatenating the extracted complete
sentences in order followed by the remainder reconstructs the input up to
whitespace normalization: filtering out whitespace on both sides yields
identical character sequences, so no characters are lost or reordered. -/
theorem extract_reconstruction (text : List Char) :
    (joinExtract (extract_complete_sentences text)).filter (fun c => !isPySpace c)
      = text.filter (fun c => !isPySpace c) := by
  rw [extract_complete_sentences_eq]
  have hjoin : joinExtract (extractLoop (parseTokens text).1, pyStrip (parseTokens text).2)
      = ((extractLoop (parseTokens text).1).foldr (fun s acc => s ++ acc) [])
          ++ pyStrip (parseTokens text).2 := by
    unfold joinExtract
    exact foldr_append_init _ _
  rw [hjoin, List.filter_append, filter_extractLoop, filter_pyStrip,
    ← List.filter_append, parseTokens_flatten]

/-- Claim C3 counterexample: splitting the text `"a b."` as `"a "` then
`"b."` breaks restartability, because the extractor strips the remainder:
the incremental run yields the sentence `"ab."` while the one-shot run
yields `"a b."`. -/
theorem extract_restartable_counterexample :
    ¬ (extract_complete_sentences ("a ".toList ++ "b.".toList)
        = ((extract_complete_sentences "a ".toList).1
              ++ (extract_complete_sentences
                    ((extract_complete_sentences "a ".toList).2 ++ "b.".toList)).1,
           (extract_complete_sentences
              ((extract_complete_sentences "a ".toList).2 ++ "b.".toList)).2)) := by
  decide

/-- Claim C3, amended: the sentence extractor is restartable for a split
point `a+b` / `c` provided the first part does not end with a whitespace
character (stripping the remainder would otherwise drop the whitespace at
the seam) and the split does not fall inside a punctuation run (the first
part ending with a terminal character while the continuation starts with
one): under those boundary conditions, extracting `a+b`, carrying the
remainder forward, and extracting `remainder + c` yields the same combined
sentence list and final remainder as extracting `a+b+c` at once. -/
theorem extract_restartable_amended (u v : List Char)
    (h : u = [] ∨ (isPySpace (u.getLast?.getD ' ') = false ∧
      (isPunct (u.getLast?.getD ' ') = true → isPunct (v.head?.getD ' ') = false))) :
    extract_complete_sentences (u ++ v)
      = ((extract_complete_sentences u).1
            ++ (extract_complete_sentences
                  ((extract_complete_sentences u).2 ++ v)).1,
         (extract_complete_sentences
            ((extract_complete_sentences u).2 ++ v)).2) := by
  rcases h with h | ⟨hws, hpv⟩
  · subst h
    have h0 : extract_complete_sentences [] = ([], []) := rfl
    rw [List.nil_append, h0]
    simp
  · have hune : u ≠ [] := by
      intro hu
      subst hu
      simp at hws
      exact absurd hws (by decide)
    obtain ⟨cl, hcl⟩ : ∃ cl, u.getLast? = some cl := by
      cases hgl : u.getLast? with
      | none => exact absurd (List.getLast?_eq_none_iff.mp hgl) hune
      | some cl => exact ⟨cl, rfl⟩
    rw [hcl] at hws hpv
    simp only [Option.getD_some] at hws hpv
    rcases hq : parseTokens u with ⟨P, T⟩
    have hbnd : T ≠ [] ∨ P = [] ∨ (∀ cf, v.head? = some cf → isPunct cf = false) := by
      by_cases hclp : isPunct cl = true
      · right; right
        intro cf hcf
        have hx := hpv hclp
        rw [hcf] at hx
        simpa using hx
      · left
        have hx := parseTokens_tail_ne_nil u cl (by simpa using hclp) hcl
        rw [hq] at hx
        exact hx
    have happ := parseTokens_append v u P T hq hbnd
    have hTnp : ∀ x ∈ T, isPunct x = false := by
      have hnp := parseTokens_tail_no_punct u
      rw [hq] at hnp; exact hnp
    rw [extract_complete_sentences_eq u, hq]
    by_cases hTnil : T = []
    · subst hTnil
      rw [extract_complete_sentences_eq (u ++ v), happ,
        extract_complete_sentences_eq]
      have hps : pyStrip ([] : List Char) = [] := rfl
      simp [extractLoop_append, hps]
    · have hlastT : T.getLast? = some cl := by
        have hfl := parseTokens_flatten u
        rw [hq] at hfl
        have hfl2 : flattenPairs P ++ T = u := hfl
        rw [← hcl, ← hfl2]
        exact (getLast_of_append _ _ hTnil).symm
      have hstripT : pyStrip T = T.dropWhile isPySpace :=
        pyStrip_no_trailing T cl hlastT hws
      have hwall : ∀ x ∈ T.takeWhile isPySpace, isPySpace x = true :=
        fun x hx => List.mem_takeWhile_imp hx
      have hwnp : ∀ x ∈ T.takeWhile isPySpace, isPunct x = false :=
        fun x hx => punct_not_space x (hwall x hx)
      have hTsplit : T.takeWhile isPySpace ++ T.dropWhile isPySpace = T :=
        List.takeWhile_append_dropWhile isPySpace T
      have hTv : parseTokens (T ++ v)
          = prependContent (T.takeWhile isPySpace)
              (parseTokens (T.dropWhile isPySpace ++ v)) := by
        rw [← hTsplit, List.append_assoc,
          parseTokens_content_block _ _ hwnp]
        rw [hTsplit]
      rw [extract_complete_sentences_eq (u ++ v), happ, hTv,
        extract_complete_sentences_eq, hstripT]
      rcases hpv2 : parseTokens (T.dropWhile isPySpace ++ v) with ⟨Pv, Tv⟩
      rcases Pv with _ | ⟨⟨cv, pv⟩, restv⟩
      · simp only [prependContent]
        rw [extractLoop_append]
        rw [pyStrip_space_left (T.takeWhile isPySpace) Tv hwall]
      · simp only [prependContent]
        rw [extractLoop_append,
          extractLoop_space_head (T.takeWhile isPySpace) cv pv restv hwall]

theorem extract_restartable_amended_instance :
    extract_complete_sentences ("a.b".toList ++ "c.".toList)
      = ((extract_complete_sentences "a.b".toList).1
            ++ (extract_complete_sentences
                  ((extract_complete_sentences "a.b".toList).2 ++ "c.".toList)).1,
         (extract_complete_sentences
            ((extract_complete_sentences "a.b".toList).2 ++ "c.".toList)).2) :=
  extract_restartable_amended "a.b".toList "c.".toList (Or.inr (by decide))

/-- Claim C2: in rolling-context mode the reset triggered when the counter
exceeds 9 excludes the triggering message: for any run of at least eleven
sequential translate calls from a fresh translator, the 10th call sends
the LLM a context holding only the system prompt, and the 11th call sends
exactly the system prompt plus the 11th message, a context of length 2. -/
theorem rolling_context_reset (sys m1 m2 m3 m4 m5 m6 m7 m8 m9 m10 m11 : String)
    (rest : List String) :
    ((runTranslations true sys (initTranslator sys)
        ([m1, m2, m3, m4, m5, m6, m7, m8, m9, m10, m11] ++ rest)).2.get? 9
        = some [systemMsg sys]) ∧
    ((runTranslations true sys (initTranslator sys)
        ([m1, m2, m3, m4, m5, m6, m7, m8, m9, m10, m11] ++ rest)).2.get? 10
        = some [systemMsg sys, userMsg m11]) ∧
    (((runTranslations true sys (initTranslator sys)
        ([m1, m2, m3, m4, m5, m6, m7, m8, m9, m10, m11] ++ rest)).2.get? 10).map
          List.length = some 2) :=
  ⟨rfl, rfl, rfl⟩

theorem runTranslations_fresh (sys : String) (s : TranslatorState)
    (msgs : List String) :
    runTranslations false sys s msgs
      = (s, msgs.map (fun m => [systemMsg sys, userMsg m])) := by
  induction msgs generalizing s with
  | nil => rfl
  | cons m ms ih => simp [runTranslations, translateContext, ih]

/-- Claim C10: in fresh-context mode, the code default, every translate
call builds a throwaway `[system, user]` context and leaves the persistent
Translator state unchanged: after any number of calls the stored context is
still exactly the system prompt and the counter is still zero. -/
theorem fresh_mode_no_state_change (sys : String) (msgs : List String) :
    use_context = false ∧
    (runTranslations false sys (initTranslator sys) msgs).1 = initTranslator sys ∧
    (runTranslations false sys (initTranslator sys) msgs).1.context
      = [systemMsg sys] ∧
    (runTranslations false sys (initTranslator sys) msgs).1.message_count = 0 ∧
    (runTranslations false sys (initTranslator sys) msgs).2
      = msgs.map (fun m => [systemMsg sys, userMsg m]) := by
  rw [runTranslations_fresh]
  exact ⟨rfl, rfl, rfl, rfl, rfl⟩

theorem string_foldl_append (a : String) (l : List String) :
    l.foldl (fun r s => r ++ s) a = a ++ l.foldl (fun r s => r ++ s) "" := by
  induction l generalizing a with
  | nil => simp
  | cons t ts ih =>
    simp only [List.foldl]
    rw [ih (a ++ t), ih ("" ++ t)]
    simp [String.append_assoc]

theorem string_join_cons (t : String) (ts : List String) :
    String.join (t :: ts) = t ++ String.join ts := by
  simp only [String.join, List.foldl]
  rw [string_foldl_append]
  simp

/-- Claim C7: translate assembles the translation as the concatenation of
all content tokens emitted until the stream signals completion, whether by
end of stream or a `None` content chunk; delta-less chunks are skipped and
an empty stream yields the empty translation rather than an error. -/
theorem translation_stream_assembly :
    (∀ toks : List String,
        assembleStream (toks.map (fun s => some (some s))) = String.join toks) ∧
    (∀ (toks : List String) (rest : List (Option (Option String))),
        assembleStream (toks.map (fun s => some (some s)) ++ some none :: rest)
          = String.join toks) ∧
    (∀ chunks, assembleStream (none :: chunks) = assembleStream chunks) ∧
    assembleStream [] = "" := by
  refine ⟨?_, ?_, fun chunks => rfl, rfl⟩
  · intro toks
    induction toks with
    | nil => rfl
    | cons t ts ih =>
      rw [List.map_cons, string_join_cons]
      show t ++ assembleStream (ts.map (fun s => some (some s))) = _
      rw [ih]
  · intro toks rest
    induction toks with
    | nil => rfl
    | cons t ts ih =>
      rw [List.map_cons, string_join_cons, List.cons_append]
      show t ++ assembleStream (ts.map (fun s => some (some s)) ++ some none :: rest) = _
      rw [ih]

/-- Claim C8: a language-request signal carrying a nonempty code outside
the supported-language table leaves the registry unchanged, creates no
Translator, and is recorded as the UnsupportedLanguage condition rather
than raised; the hypothesis that the registry holds only supported codes
is an invariant of the system, since entries are only ever created from
the supported table. -/
theorem unsupported_language_rejected (translators : List String) (lang : String)
    (hreg : ∀ k ∈ translators, k ∈ supportedCodes)
    (hun : lang ∉ supportedCodes) (hne : lang ≠ "") :
    on_attributes_changed translators (some lang)
      = (translators, AttrEvent.unsupportedLanguage) := by
  have hsrc : lang ≠ source_language := by
    intro hx
    exact hun (by rw [hx]; decide)
  have hmem : lang ∉ translators := fun hx => hun (hreg lang hx)
  simp [on_attributes_changed, hne, hsrc, hmem, hun]

theorem unsupported_language_rejected_instance :
    on_attributes_changed ["nl"] (some "xx")
      = (["nl"], AttrEvent.unsupportedLanguage) :=
  unsupported_language_rejected ["nl"] "xx" (by decide) (by decide) (by decide)

theorem translate_sentences_go_ok (translators : List String)
    (beh : String → List Char → Except String String)
    (sentences : List (List Char)) :
    ∃ calls, translate_sentences_go translators beh sentences = Except.ok calls ∧
      ∀ l s, l ∈ translators → s ∈ sentences → pyStrip s ≠ [] →
        (l, s, beh l s) ∈ calls := by
  induction sentences with
  | nil =>
    refine ⟨[], rfl, ?_⟩
    intro l s _ hs _
    exact absurd hs (List.not_mem_nil s)
  | cons s0 rest ih =>
    obtain ⟨calls, hok, hmem⟩ := ih
    by_cases h0 : pyStrip s0 = []
    · refine ⟨calls, ?_, ?_⟩
      · simp only [translate_sentences_go, if_pos h0]
        exact hok
      · intro l s hl hs hns
        rcases List.mem_cons.mp hs with rfl | hs
        · exact absurd h0 hns
        · exact hmem l s hl hs hns
    · refine ⟨translateTasks translators beh s0 ++ calls, ?_, ?_⟩
      · simp only [translate_sentences_go, if_neg h0, gatherReturnExceptions, hok]
      · intro l s hl hs hns
        rcases List.mem_cons.mp hs with rfl | hs
        · exact List.mem_append_left _ (List.mem_map.mpr ⟨l, hl, rfl⟩)
        · exact List.mem_append_right _ (hmem l s hl hs hns)

/-- Claim C5: even when one translator's invocation raises, every
translator's invocation for every dispatched sentence still runs to
completion and appears in the gathered results, and the dispatch returns
normally (`Except.ok`) instead of re-raising a whole-batch failure. -/
theorem translate_sentences_failure_isolated (translators : List String)
    (beh : String → List Char → Except String String)
    (sentences : List (List Char)) (lf : String) (sf : List Char) (e : String)
    (hlf : lf ∈ translators) (hfail : beh lf sf = Except.error e) :
    ∃ calls, translate_sentences translators beh sentences = Except.ok calls ∧
      ∀ l s, l ∈ translators → s ∈ sentences → pyStrip s ≠ [] →
        (l, s, beh l s) ∈ calls := by
  unfold translate_sentences
  by_cases hg : sentences = [] ∨ translators = []
  · rw [if_pos hg]
    refine ⟨[], rfl, ?_⟩
    intro l s hl hs hns
    rcases hg with hg | hg
    · subst hg; exact absurd hs (List.not_mem_nil s)
    · subst hg; exact absurd hl (List.not_mem_nil l)
  · rw [if_neg hg]
    exact translate_sentences_go_ok translators beh sentences

theorem translate_sentences_failure_isolated_instance :
    ∃ calls, translate_sentences ["nl", "fr"] behFail ["a.".toList]
        = Except.ok calls ∧
      ∀ l s, l ∈ (["nl", "fr"] : List String) →
        s ∈ (["a.".toList] : List (List Char)) → pyStrip s ≠ [] →
        (l, s, behFail l s) ∈ calls :=
  translate_sentences_failure_isolated ["nl", "fr"] behFail ["a.".toList]
    "fr" "a.".toList "boom" (by decide) rfl

theorem translate_sentences_go_singleton (lang : String)
    (beh : String → List Char → Except String String)
    (sentences : List (List Char)) :
    translate_sentences_go [lang] beh sentences
      = Except.ok ((sentences.filter (fun s => !(pyStrip s).isEmpty)).map
          (fun s => (lang, s, beh lang s))) := by
  induction sentences with
  | nil => rfl
  | cons s0 rest ih =>
    by_cases h0 : pyStrip s0 = []
    · have hemp : (pyStrip s0).isEmpty = true := by simp [h0]
      simp only [translate_sentences_go, if_pos h0, ih, List.filter_cons, hemp,
        Bool.not_true]
      simp
    · have hemp : (pyStrip s0).isEmpty = false := by
        cases he : (pyStrip s0).isEmpty with
        | false => rfl
        | true => exact absurd (List.isEmpty_eq_true.mp he) h0
      simp only [translate_sentences_go, if_neg h0, gatherReturnExceptions, ih,
        translateTasks, List.filter_cons, hemp, Bool.not_false]
      rfl

/-- Claim C9: at session initialization the translator registry contains
exactly one Translator, hard-coded for Dutch; consequently dispatch sends
every sentence that survives stripping to the `"nl"` translator, even when
no participant ever requested captions. -/
theorem initial_dutch_translator :
    initialTranslators = ["nl"] ∧
    initialTranslators.length = 1 ∧
    (∀ (beh : String → List Char → Except String String)
        (sentences : List (List Char)),
      translate_sentences initialTranslators beh sentences
        = Except.ok ((sentences.filter (fun s => !(pyStrip s).isEmpty)).map
            (fun s => ("nl", s, beh "nl" s)))) := by
  refine ⟨rfl, rfl, ?_⟩
  intro beh sentences
  by_cases hs : sentences = ([] : List (List Char))
  · subst hs
    rfl
  · have hg : ¬ (sentences = [] ∨ initialTranslators = []) := by
      intro hg
      rcases hg with hg | hg
      · exact hs hg
      · exact absurd hg (by decide)
    unfold translate_sentences
    rw [if_neg hg]
    exact translate_sentences_go_singleton "nl" beh sentences

theorem taskInv_congr (s s' : SessionState) (h : TaskInv s)
    (ht : s'.tasks = s.tasks) (hp : s'.pendingId = s.pendingId) : TaskInv s' := by
  intro i t hti hc hf
  rw [ht] at hti
  rw [hp]
  exact h i t hti hc hf

theorem noLiveTask_cancelPending (s : SessionState) (h : TaskInv s) :
    NoLiveTask (cancelPending s) := by
  intro i t hti hc hf
  unfold cancelPending at hti
  cases hp : s.pendingId with
  | none =>
    rw [hp] at hti
    have := h i t hti hc hf
    rw [hp] at this
    exact Option.noConfusion this
  | some j =>
    rw [hp] at hti
    by_cases hij : i = j
    · subst hij
      simp only [if_pos rfl] at hti
      rcases Option.map_eq_some'.mp hti with ⟨t0, ht0, hmap⟩
      rw [← hmap] at hc
      simp at hc
    · simp only [if_neg hij] at hti
      have := h i t hti hc hf
      rw [hp] at this
      exact hij (Option.some.inj this).symm

theorem taskInv_of_noLive (s s' : SessionState) (h : NoLiveTask s)
    (ht : s'.tasks = s.tasks) : TaskInv s' := by
  intro i t hti hc hf
  rw [ht] at hti
  exact absurd (h i t hti hc hf) not_false

theorem taskInv_clearPending (s : SessionState) (h : TaskInv s) :
    TaskInv (clearPending s) :=
  taskInv_of_noLive (cancelPending s) _ (noLiveTask_cancelPending s h) rfl

theorem taskInv_armFlush (s : SessionState) (snap : List Char) (h : TaskInv s) :
    TaskInv (armFlush s snap) := by
  intro i t hti hc hf
  have hnl := noLiveTask_cancelPending s h
  by_cases hik : i = (cancelPending s).nextId
  · subst hik
    rfl
  · exfalso
    have hti2 : (cancelPending s).tasks i = some t := by
      have he : (armFlush s snap).tasks i
          = (if i = (cancelPending s).nextId then some ⟨snap, false, false⟩
             else (cancelPending s).tasks i) := rfl
      rw [he, if_neg hik] at hti
      exact hti
    exact hnl i t hti2 hc hf

theorem taskInv_stepDebounce (s1 : SessionState) (h : TaskInv s1) :
    TaskInv (stepDebounce s1) := by
  unfold stepDebounce
  by_cases hb : (pyStrip s1.accumulated).isEmpty = true
  · rw [if_pos hb]
    exact taskInv_clearPending s1 h
  · rw [if_neg hb]
    exact taskInv_armFlush s1 s1.accumulated h

theorem taskInv_stepExtract (s0 : SessionState) (acc0 : List Char)
    (h : TaskInv s0) : TaskInv (stepExtract s0 acc0).1 := by
  unfold stepExtract
  by_cases hb : (extract_complete_sentences acc0).1.isEmpty = true
  · rw [if_pos hb]
    exact taskInv_stepDebounce _ (taskInv_congr _ _ h rfl rfl)
  · rw [if_neg hb]
    exact taskInv_stepDebounce _
      (taskInv_congr _ _ (taskInv_clearPending s0 h) rfl rfl)

theorem taskInv_stepFinal (s : SessionState) (x : List Char) (h : TaskInv s) :
    TaskInv (stepFinal s x).1 := by
  unfold stepFinal
  by_cases hb1 : ((pyStrip x).isEmpty || (pyStrip x == s.lastFinal)) = true
  · rw [if_pos hb1]
    exact h
  · rw [if_neg hb1]
    by_cases hb2 : s.translators.isEmpty = true
    · rw [if_pos hb2]
      exact taskInv_congr _ _ h rfl rfl
    · rw [if_neg hb2]
      exact taskInv_stepExtract _ _ (taskInv_congr _ _ h rfl rfl)

theorem taskInv_markFired_clear (s : SessionState) (i : Nat) (t : FlushTask)
    (hti : s.tasks i = some t) (hc : t.cancelled = false) (hf : t.fired = false)
    (h : TaskInv s) :
    TaskInv (markFiredClear s i t) := by
  intro k t' htk hc' hf'
  exfalso
  have he : (markFiredClear s i t).tasks k
      = (if k = i then some { t with fired := true } else s.tasks k) := rfl
  rw [he] at htk
  by_cases hk : k = i
  · rw [if_pos hk] at htk
    injection htk with ht'
    rw [← ht'] at hf'
    simp at hf'
  · rw [if_neg hk] at htk
    have h1 := h k t' htk hc' hf'
    have h2 := h i t hti hc hf
    rw [h1] at h2
    exact hk (Option.some.inj h2)

theorem taskInv_markFired (s : SessionState) (i : Nat) (t : FlushTask)
    (hti : s.tasks i = some t) (hc : t.cancelled = false) (hf : t.fired = false)
    (h : TaskInv s) :
    TaskInv (markFired s i t) := by
  intro k t' htk hc' hf'
  have he : (markFired s i t).tasks k
      = (if k = i then some { t with fired := true } else s.tasks k) := rfl
  rw [he] at htk
  by_cases hk : k = i
  · rw [if_pos hk] at htk
    injection htk with ht'
    rw [← ht'] at hf'
    simp at hf'
  · rw [if_neg hk] at htk
    show (markFired s i t).pendingId = some k
    have hp : (markFired s i t).pendingId = s.pendingId := rfl
    rw [hp]
    exact h k t' htk hc' hf'

theorem taskInv_stepFire (s : SessionState) (i : Nat) (h : TaskInv s) :
    TaskInv (stepFire s i).1 := by
  cases hti : s.tasks i with
  | none => simpa [stepFire, hti] using h
  | some t =>
    cases hc : t.cancelled with
    | true => simpa [stepFire, hti, hc] using h
    | false =>
      cases hf : t.fired with
      | true => simpa [stepFire, hti, hc, hf] using h
      | false =>
        by_cases hl : pendingLive s = true
        · by_cases hsnap : (pyStrip t.snapshot).isEmpty = true
          · simpa [stepFire, hti, hc, hf, hl, hsnap] using
              taskInv_markFired_clear s i t hti hc hf h
          · simpa [stepFire, hti, hc, hf, hl, hsnap] using
              taskInv_markFired_clear s i t hti hc hf h
        · simpa [stepFire, hti, hc, hf, hl] using
            taskInv_markFired s i t hti hc hf h

theorem taskInv_stepSession (s : SessionState) (e : SessionEvent) (h : TaskInv s) :
    TaskInv (stepSession s e).1 := by
  cases e with
  | final x => exact taskInv_stepFinal s x h
  | fire i => exact taskInv_stepFire s i h
  | attrs l => exact taskInv_congr _ _ h rfl rfl

theorem taskInv_runSession (s : SessionState) (h : TaskInv s)
    (evs : List SessionEvent) : TaskInv (runSession s evs).1 := by
  induction evs generalizing s with
  | nil => exact h
  | cons e evs ih => exact ih _ (taskInv_stepSession s e h)

theorem taskInv_init : TaskInv initSession := by
  intro i t hti _ _
  exact Option.noConfusion hti

theorem taskInv_reachable (s : SessionState) (h : Reachable s) : TaskInv s := by
  obtain ⟨evs, hevs⟩ := h
  rw [← hevs]
  exact taskInv_runSession initSession taskInv_init evs

/-- Claim C1: a delayed-translation task that has been superseded before
its delay elapses — cancelled, or no longer the task the pending handle
refers to — never invokes sentence dispatch with its stale snapshot: in
every reachable session state, firing such a task dispatches nothing. -/
theorem pending_flush_supersession (s : SessionState) (hs : Reachable s)
    (i : Nat) (t : FlushTask) (ht : s.tasks i = some t)
    (hsup : t.cancelled = true ∨ s.pendingId ≠ some i) :
    (stepFire s i).2 = [] := by
  have hinv : TaskInv s := taskInv_reachable s hs
  cases hc : t.cancelled with
  | true => simp [stepFire, ht, hc]
  | false =>
    cases hf : t.fired with
    | true => simp [stepFire, ht, hc, hf]
    | false =>
      rcases hsup with hsup | hsup
      · rw [hc] at hsup
        exact absurd hsup (by simp)
      · exact absurd (hinv i t ht hc hf) hsup

theorem pending_flush_supersession_instance :
    ((runSession initSession
        [SessionEvent.final "hello".toList,
         SessionEvent.final "world.".toList]).1.tasks 0
      = some ⟨"hello".toList, true, false⟩) ∧
    (stepFire (runSession initSession
        [SessionEvent.final "hello".toList,
         SessionEvent.final "world.".toList]).1 0).2 = [] := by
  refine ⟨by decide, ?_⟩
  exact pending_flush_supersession _
    ⟨[SessionEvent.final "hello".toList, SessionEvent.final "world.".toList], rfl⟩
    0 ⟨"hello".toList, true, false⟩ (by decide) (Or.inl rfl)

theorem lastFinal_cancelPending (s : SessionState) :
    (cancelPending s).lastFinal = s.lastFinal := by
  unfold cancelPending
  cases s.pendingId <;> rfl

theorem lastFinal_clearPending (s : SessionState) :
    (clearPending s).lastFinal = s.lastFinal := by
  show (cancelPending s).lastFinal = s.lastFinal
  exact lastFinal_cancelPending s

theorem lastFinal_armFlush (s : SessionState) (snap : List Char) :
    (armFlush s snap).lastFinal = s.lastFinal := by
  show (cancelPending s).lastFinal = s.lastFinal
  exact lastFinal_cancelPending s

theorem lastFinal_stepDebounce (s1 : SessionState) :
    (stepDebounce s1).lastFinal = s1.lastFinal := by
  unfold stepDebounce
  by_cases hb : (pyStrip s1.accumulated).isEmpty = true
  · rw [if_pos hb]
    exact lastFinal_clearPending s1
  · rw [if_neg hb]
    exact lastFinal_armFlush s1 _

theorem lastFinal_stepExtract (s0 : SessionState) (acc0 : List Char) :
    (stepExtract s0 acc0).1.lastFinal = s0.lastFinal := by
  unfold stepExtract
  by_cases hb : (extract_complete_sentences acc0).1.isEmpty = true
  · rw [if_pos hb]
    exact lastFinal_stepDebounce _
  · rw [if_neg hb]
    show (stepDebounce _).lastFinal = _
    rw [lastFinal_stepDebounce]
    exact lastFinal_clearPending s0

theorem stepFinal_lastFinal (s : SessionState) (x : List Char)
    (hb : ((pyStrip x).isEmpty || (pyStrip x == s.lastFinal)) = false) :
    (stepFinal s x).1.lastFinal = pyStrip x := by
  unfold stepFinal
  simp only [hb, Bool.false_eq_true, if_false]
  by_cases hb2 : s.translators.isEmpty = true
  · rw [if_pos hb2]
  · rw [if_neg hb2]
    exact lastFinal_stepExtract _ _

/-- Claim C4: a final fragment that strips to exactly the last accepted
final text is discarded entirely — the session state (buffer, dedup
register, debounce tasks) is unchanged and nothing is dispatched — and
submitting the same final text twice in a row performs the
accumulation/dispatch cycle exactly once: the second submission is a
no-op. -/
theorem duplicate_final_discarded :
    (∀ (s : SessionState) (x : List Char), pyStrip x = s.lastFinal →
        stepFinal s x = (s, [])) ∧
    (∀ (s : SessionState) (x : List Char),
        stepFinal (stepFinal s x).1 x = ((stepFinal s x).1, [])) := by
  have part1 : ∀ (s : SessionState) (x : List Char), pyStrip x = s.lastFinal →
      stepFinal s x = (s, []) := by
    intro s x h
    have hb : (pyStrip x == s.lastFinal) = true := by
      rw [h]
      exact beq_self_eq_true _
    unfold stepFinal
    rw [hb, Bool.or_true]
    rfl
  refine ⟨part1, ?_⟩
  intro s x
  cases hb : ((pyStrip x).isEmpty || (pyStrip x == s.lastFinal)) with
  | true =>
    have hskip : stepFinal s x = (s, []) := by
      unfold stepFinal
      rw [hb]
      rfl
    rw [hskip]
    exact hskip
  | false =>
    apply part1
    rw [stepFinal_lastFinal s x hb]

theorem duplicate_final_discarded_instance :
    stepFinal (runSession initSession
        [SessionEvent.final "hello".toList]).1 "hello".toList
      = ((runSession initSession [SessionEvent.final "hello".toList]).1, []) :=
  duplicate_final_discarded.1 _ _ (by decide)
